import Mathlib

set_option maxHeartbeats 1000000

/-!
Verification of the tensor-expression JIT layer: the JIT instance cache
(`PytorchLLVMJITCache`), the target-machine builder helpers, the intrinsic
symbol registration, the unique-function-name allocator, and the type-erased
`CodeGen::CallArg` cell.  Each C++ function is embedded as an executable Lean
definition; stateful members are embedded by explicit state passing.
-/

namespace PytorchJit

/-- Embeds `PytorchLLVMJITCache::getCacheKey`: the C++ returns
`"triple:" + (triple ? *triple : "") + "cpu:" + (cpu ? *cpu : "") +
"attrs:" + (attrs ? *attrs : "")`. -/
def getCacheKey (triple cpu attrs : Option String) : String :=
  "triple:" ++ (match triple with | some t => t | none => "") ++
    ("cpu:" ++ (match cpu with | some c => c | none => "") ++
      ("attrs:" ++ (match attrs with | some a => a | none => "")))

/-- A target descriptor: the three optional strings passed to
`getPytorchLLVMJITInstance` and to the `PytorchLLVMJIT` constructor. -/
structure TargetDesc where
  triple : Option String
  cpu : Option String
  attrs : Option String
deriving DecidableEq

/-- The cache key of a descriptor. -/
def descKey (d : TargetDesc) : String :=
  getCacheKey d.triple d.cpu d.attrs

/-- Association-list lookup, embedding `std::unordered_map::find` on the
JIT cache (`jit_cache_.find(cacheKey)`). -/
def findEntry : List (String × Nat) → String → Option Nat
  | [], _ => none
  | (k, v) :: rest, s => if k = s then some v else findEntry rest s

/-- State of `PytorchLLVMJITCache`: the map `jit_cache_` from cache keys to
engine instances, plus a fresh-allocation counter standing for `new` pointer
identity (two engines are the same object iff they carry the same id). -/
structure CacheState where
  cache : List (String × Nat)
  nextId : Nat

/-- The empty cache, the state of the static `jit_cache_` at process start. -/
def initCache : CacheState := ⟨[], 0⟩

/-- Embeds `PytorchLLVMJITCache::getPytorchLLVMJITInstance`: compute the cache
key; on a hit return the cached engine; on a miss construct a fresh engine
(`std::make_unique`, modelled by the fresh id `nextId`), insert it under the
key and return it.  The whole body runs under `mutex_`, so one call is one
atomic step. -/
def getPytorchLLVMJITInstance (s : CacheState) (d : TargetDesc) :
    Nat × CacheState :=
  match findEntry s.cache (descKey d) with
  | some id => (id, s)
  | none => (s.nextId, ⟨(descKey d, s.nextId) :: s.cache, s.nextId + 1⟩)

/-- Run a sequence of `get` calls, collecting the returned engine ids. -/
def runGets (s : CacheState) : List TargetDesc → List Nat
  | [] => []
  | d :: rest =>
    let r := getPytorchLLVMJITInstance s d
    r.1 :: runGets r.2 rest

/-- Final cache state after a sequence of `get` calls. -/
def runGetsState (s : CacheState) : List TargetDesc → CacheState
  | [] => s
  | d :: rest => runGetsState (getPytorchLLVMJITInstance s d).2 rest

/-- State of the unique-name allocator: the member
`std::unordered_map<std::string, int> existing_functions_` of
`PytorchLLVMJIT`, embedded as a partial map. -/
def NameMap : Type := String → Option Nat

/-- The empty map: allocator state at engine construction. -/
def emptyNames : NameMap := fun _ => none

/-- Map update, embedding `existing_functions_[name] = v`. -/
def setName (m : NameMap) (name : String) (v : Nat) : NameMap :=
  fun t => if t = name then some v else m t

/-- Embeds `PytorchLLVMJIT::getUniqueFunctionName`: under the lock, if `name`
is not yet in `existing_functions_` store counter `0` and return `name`
unchanged; otherwise bump the counter and return
`name + "_" + std::to_string(old + 1)` (decimal rendering, i.e. `Nat.repr`). -/
def getUniqueFunctionName (m : NameMap) (name : String) : String × NameMap :=
  match m name with
  | none => (name, setName m name 0)
  | some k => (name ++ "_" ++ Nat.repr (k + 1), setName m name (k + 1))

/-- Run a sequence of `getUniqueFunctionName` calls, collecting the
returned names. -/
def runNames (m : NameMap) : List String → List String
  | [] => []
  | b :: rest =>
    let r := getUniqueFunctionName m b
    r.1 :: runNames r.2 rest

/-- Number of calls with base `b` in a call sequence. -/
def countOcc : String → List String → Nat
  | _, [] => 0
  | b, x :: rest => (if x = b then 1 else 0) + countOcc b rest

/-- The name the allocator hands out for base `b` when `n` earlier calls
used the same base: `b` itself for the first call, `b_n` (decimal `n`) for
the `n`-th subsequent call. -/
def expectedName (b : String) (n : Nat) : String :=
  if n = 0 then b else b ++ "_" ++ Nat.repr n

/-- Name returned by the `i`-th call of a sequence of
`getUniqueFunctionName` calls on a freshly constructed engine (empty
allocator map). -/
def nameAt (l : List String) (i : Nat) : String :=
  (runNames emptyNames l).getD i ""

instance : Inhabited TargetDesc := ⟨⟨none, none, none⟩⟩

/-- Engine id returned by the `i`-th `get` call of a request sequence run
from the empty cache. -/
def engineAt (ds : List TargetDesc) (i : Nat) : Nat :=
  (runGets initCache ds).getD i 0

/-- Cache-state sanity: every cached engine id was allocated (is below the
allocation counter), and distinct keys never share an engine id. -/
def GoodCache (s : CacheState) : Prop :=
  (∀ p ∈ s.cache, p.2 < s.nextId) ∧
    (∀ p ∈ s.cache, ∀ q ∈ s.cache, p.2 = q.2 → p.1 = q.1)

/-- Host configuration as observed through the LLVM host-introspection calls
used by `makeJTMBFromHost`: `llvm::sys::getProcessTriple()`,
`llvm::sys::getHostCPUName()`, and the `llvm::sys::getHostCPUFeatures` map
(feature name, enabled flag) in iteration order. -/
structure HostInfo where
  hostTriple : String
  hostCPU : String
  hostFeatures : List (String × Bool)
deriving DecidableEq

/-- Modelled from LLVM `SubtargetFeatures::AddFeature`, which the source calls
in `getHostSubtargetFeatures`: an enabled feature is recorded as `"+" ++ name`
and a disabled one as `"-" ++ name`. -/
def addFeature (name : String) (enabled : Bool) : String :=
  (if enabled then "+" else "-") ++ name

/-- Embeds `getHostSubtargetFeatures` followed by `.getFeatures()`: one
feature string per entry of the host CPU feature map. -/
def getHostSubtargetFeatures (h : HostInfo) : List String :=
  h.hostFeatures.map (fun p => addFeature p.1 p.2)

/-- Modelled from LLVM `SubtargetFeatures::Split`, which the source uses to
parse a supplied attrs string: split on commas, dropping empty pieces. -/
def splitFeatures (s : String) : List String :=
  (s.splitOn ",").filter (fun t => t ≠ "")

/-- The observable state of an `llvm::orc::JITTargetMachineBuilder`: target
triple, CPU name (the empty string when never set), accumulated feature
strings, the code-generation optimization level (LLVM encoding: 0 = None,
1 = Less, 2 = Default, 3 = Aggressive), and whether fast FP-op fusion was
requested. -/
structure JTMB where
  targetTriple : String
  cpu : String
  features : List String
  codeGenOptLevel : Nat
  allowFPOpFusionFast : Bool
deriving DecidableEq

/-- A fresh `JITTargetMachineBuilder(Triple(t))`: CPU unset, no features,
LLVM defaults for the remaining knobs. -/
def mkJTMB (triple : String) : JTMB := ⟨triple, "", [], 2, false⟩

/-- Embeds `makeJTMBFromHost`: builder on the host triple; `setCPU` with the
supplied CPU or the host CPU name; `addFeatures` with the parsed supplied
attrs or with the host-detected features. -/
def makeJTMBFromHost (h : HostInfo) (cpu attrs : Option String) : JTMB :=
  let J0 := mkJTMB h.hostTriple
  let J1 := { J0 with cpu := cpu.getD h.hostCPU }
  match attrs with
  | some a => { J1 with features := J1.features ++ splitFeatures a }
  | none => { J1 with features := J1.features ++ getHostSubtargetFeatures h }

/-- Embeds `makeJTMBFromTriple`: builder on the given triple; CPU and attrs
are set only when supplied (the source comment: "Do not set cpu or attrs if
not supplied"). -/
def makeJTMBFromTriple (triple : String) (cpu attrs : Option String) : JTMB :=
  let J0 := mkJTMB triple
  let J1 := match cpu with
    | some c => { J0 with cpu := c }
    | none => J0
  match attrs with
  | some a => { J1 with features := J1.features ++ splitFeatures a }
  | none => J1

/-- Embeds `makeTargetMachineBuilder`: dispatch on the presence of the
triple, then set `CodeGenOpt::Default` and `FPOpFusion::Fast`. -/
def makeTargetMachineBuilder (h : HostInfo) (triple cpu attrs : Option String) :
    JTMB :=
  let J := match triple with
    | some t => makeJTMBFromTriple t cpu attrs
    | none => makeJTMBFromHost h cpu attrs
  { J with codeGenOptLevel := 2, allowFPOpFusionFast := true }

/-- A concrete host used for counterexamples and witnesses. -/
def host0 : HostInfo :=
  ⟨"x86_64-unknown-linux-gnu", "skylake", [("avx", true), ("avx512f", false)]⟩

/-- Embeds `std::map::insert` on the local `SymbolMap symbols` of
`registerIntrinsics`: inserting a key that is already present leaves the map
unchanged (the first insertion wins inside one batch). -/
def insertIfAbsent (m : List (String × Nat)) (k : String) (v : Nat) :
    List (String × Nat) :=
  match findEntry m k with
  | some _ => m
  | none => m ++ [(k, v)]

/-- The `SymbolMap symbols` built from the static intrinsic list by the
first loop of `registerIntrinsics`. -/
def buildStaticSymbolMap (staticList : List (String × Nat)) :
    List (String × Nat) :=
  staticList.foldl (fun m p => insertIfAbsent m p.1 p.2) []

/-- Modelled from the spec: `JITDylib::define(absoluteSymbols({entry}))` on
the engine's linkage namespace, which is not part of the analyzed sources.
Per the spec, duplicate names are permitted and the last registration wins at
link time, so a new definition shadows any earlier one. -/
def jdDefine (jd : List (String × Nat)) (k : String) (v : Nat) :
    List (String × Nat) :=
  (k, v) :: jd

/-- Embeds `registerIntrinsics`: build the static symbol map and define it
into the fresh dylib while recording every static name in the `intrinsics`
set; then define every backend external-function-registry entry; finally
define `DispatchParallel`.  Returns the dylib symbol table and the
`intrinsics` name set. -/
def registerIntrinsics (staticList registry : List (String × Nat))
    (dispatchParallelAddr : Nat) : List (String × Nat) × List String :=
  let jd1 := buildStaticSymbolMap staticList
  let intr := staticList.map Prod.fst
  let jd2 := registry.foldl (fun jd p => jdDefine jd p.1 p.2) jd1
  let jd3 := jdDefine jd2 "DispatchParallel" dispatchParallelAddr
  (jd3, intr)

/-- Embeds `PytorchLLVMJITImpl::hasSymbol`: membership in the `intrinsics`
set only, never a linker query. -/
def hasSymbol (intr : List String) (name : String) : Bool :=
  decide (name ∈ intr)

/-- Embeds `PytorchLLVMJITImpl::findSymbol` restricted to the engine's own
dylib: resolve the name in the symbol table built by registration. -/
def findSymbol (jd : List (String × Nat)) (name : String) : Option Nat :=
  findEntry jd name

/-- The binding produced by the last `jdDefine` of `k` while folding over a
registration list (none when `k` is never registered there). -/
def lastBinding : List (String × Nat) → String → Option Nat
  | [], _ => none
  | (a, v) :: rest, k =>
    match lastBinding rest k with
    | some w => some w
    | none => if a = k then some v else none

/-- The scalar kinds for which `CodeGen::CallArg` has a constructor and an
accessor: the expansion of `AT_FORALL_SCALAR_TYPES_AND3(Bool, Half, BFloat16,
...)`, i.e. `uint8_t` Byte, `int8_t` Char, `int16_t` Short, `int` Int,
`int64_t` Long, `float` Float, `double` Double, `bool` Bool, `at::Half` Half,
`at::BFloat16` BFloat16. -/
inductive ScalarKind where
  | byte
  | char
  | short
  | int
  | long
  | float
  | double
  | bool
  | half
  | bfloat16
deriving DecidableEq

/-- `sizeof(Type)` in bytes for each supported scalar kind. -/
def byteWidth : ScalarKind → Nat
  | .byte => 1
  | .char => 1
  | .short => 2
  | .int => 4
  | .long => 8
  | .float => 4
  | .double => 8
  | .bool => 1
  | .half => 2
  | .bfloat16 => 2

/-- The kinds stored as two's-complement signed integers.  The floating
kinds (Float, Double, Half, BFloat16) are handled by their raw bit patterns:
`memcpy` in the constructor and the reinterpreting accessor move bits
unchanged, so a value of such a kind is represented here by its bit pattern
as a nonnegative integer. -/
def isSignedInt : ScalarKind → Bool
  | .char => true
  | .short => true
  | .int => true
  | .long => true
  | _ => false

/-- The set of values representable in a scalar of kind `k` (bit patterns
for the floating kinds, `{0, 1}` for `bool`). -/
def inRange : ScalarKind → Int → Prop
  | .byte, v => 0 ≤ v ∧ v < 2 ^ 8
  | .char, v => -(2 ^ 7) ≤ v ∧ v < 2 ^ 7
  | .short, v => -(2 ^ 15) ≤ v ∧ v < 2 ^ 15
  | .int, v => -(2 ^ 31) ≤ v ∧ v < 2 ^ 31
  | .long, v => -(2 ^ 63) ≤ v ∧ v < 2 ^ 63
  | .float, v => 0 ≤ v ∧ v < 2 ^ 32
  | .double, v => 0 ≤ v ∧ v < 2 ^ 64
  | .bool, v => v = 0 ∨ v = 1
  | .half, v => 0 ≤ v ∧ v < 2 ^ 16
  | .bfloat16, v => 0 ≤ v ∧ v < 2 ^ 16

/-- The bit pattern `memcpy` copies out of a value of kind `k`: its value
reduced modulo `2 ^ (8 * sizeof)` (two's complement for the signed kinds). -/
def bitPattern (k : ScalarKind) (v : Int) : Nat :=
  (v % ((2 ^ (8 * byteWidth k) : Nat) : Int)).toNat

/-- Embeds the `ARG_TYPE_CTOR` constructor `CallArg(Type v) {
memcpy(&data_, &v, sizeof(Type)); }`: the cell `data_` (one pointer-sized
word, modelled as a natural number below `2 ^ 64` in spirit) receives the
value's bit pattern in its low `sizeof(Type)` bytes; the remaining high
bytes keep whatever `junk` the uninitialized cell held. -/
def mkCallArgScalar (k : ScalarKind) (junk : Nat) (v : Int) : Nat :=
  bitPattern k v + 2 ^ (8 * byteWidth k) * junk

/-- Embeds the `ARG_PTR_DEFINE` accessor `Type* NamePtr() const { return
(Type*)&data_; }` followed by a dereference: read the low `sizeof(Type)`
bytes of the cell back as a value of kind `k` (two's complement decoding for
the signed kinds). -/
def readCallArgScalar (k : ScalarKind) (cell : Nat) : Int :=
  let p := cell % 2 ^ (8 * byteWidth k)
  if isSignedInt k ∧ 2 ^ (8 * byteWidth k - 1) ≤ p then
    (p : Int) - 2 ^ (8 * byteWidth k)
  else
    (p : Int)

end PytorchJit

namespace PytorchJit

theorem findEntry_mem {l : List (String × Nat)} {k : String} {v : Nat}
    (h : findEntry l k = some v) : (k, v) ∈ l := by
  induction l with
  | nil => simp [findEntry] at h
  | cons p rest ih =>
    obtain ⟨pk, pv⟩ := p
    by_cases hk : pk = k
    · subst hk
      simp [findEntry] at h
      subst h
      exact List.mem_cons_self _ _
    · simp [findEntry, hk] at h
      exact List.mem_cons_of_mem _ (ih h)

theorem goodCache_init : GoodCache initCache := by
  constructor <;> intro p hp <;> simp [initCache] at hp

theorem goodCache_step (s : CacheState) (d : TargetDesc) (h : GoodCache s) :
    GoodCache (getPytorchLLVMJITInstance s d).2 := by
  obtain ⟨hbound, hinj⟩ := h
  unfold getPytorchLLVMJITInstance
  cases hfind : findEntry s.cache (descKey d) with
  | some id => exact ⟨hbound, hinj⟩
  | none =>
    constructor
    · intro p hp
      rcases List.mem_cons.mp hp with hp | hp
      · subst hp; exact Nat.lt_succ_self _
      · exact Nat.lt_succ_of_lt (hbound p hp)
    · intro p hp q hq hpq
      rcases List.mem_cons.mp hp with hp | hp <;>
        rcases List.mem_cons.mp hq with hq | hq
      · subst hp; subst hq; rfl
      · subst hp; exact absurd hpq.symm (Nat.ne_of_lt (hbound q hq))
      · subst hq; exact absurd hpq (Nat.ne_of_lt (hbound p hp))
      · exact hinj p hp q hq hpq

theorem goodCache_run (s : CacheState) (ds : List TargetDesc)
    (h : GoodCache s) : GoodCache (runGetsState s ds) := by
  induction ds generalizing s with
  | nil => exact h
  | cons d rest ih => exact ih _ (goodCache_step s d h)

theorem findEntry_step_persist (s : CacheState) (d : TargetDesc) {k : String}
    {v : Nat} (h : findEntry s.cache k = some v) :
    findEntry (getPytorchLLVMJITInstance s d).2.cache k = some v := by
  unfold getPytorchLLVMJITInstance
  cases hfind : findEntry s.cache (descKey d) with
  | some id => exact h
  | none =>
    by_cases hk : descKey d = k
    · subst hk; rw [hfind] at h; exact absurd h (by simp)
    · simpa [findEntry, hk] using h

theorem findEntry_run_persist (s : CacheState) (ds : List TargetDesc)
    {k : String} {v : Nat} (h : findEntry s.cache k = some v) :
    findEntry (runGetsState s ds).cache k = some v := by
  induction ds generalizing s with
  | nil => exact h
  | cons d rest ih => exact ih _ (findEntry_step_persist s d h)

theorem runGets_getD_eq_findEntry (ds : List TargetDesc) (s : CacheState)
    (i : Nat) (hi : i < ds.length) :
    findEntry (runGetsState s ds).cache
        (descKey (ds.getD i default)) =
      some ((runGets s ds).getD i 0) := by
  induction ds generalizing s i with
  | nil => exact absurd hi (Nat.not_lt_zero i)
  | cons d rest ih =>
    cases i with
    | zero =>
      have hkey : findEntry (getPytorchLLVMJITInstance s d).2.cache
          (descKey d) = some (getPytorchLLVMJITInstance s d).1 := by
        unfold getPytorchLLVMJITInstance
        cases hfind : findEntry s.cache (descKey d) with
        | some id => exact hfind
        | none => simp [findEntry]
      simpa [runGets, runGetsState] using
        findEntry_run_persist _ rest hkey
    | succ n =>
      have hn : n < rest.length := Nat.lt_of_succ_lt_succ hi
      simpa [runGets, runGetsState] using
        ih (getPytorchLLVMJITInstance s d).2 n hn

theorem findEntry_jdDefine (jd : List (String × Nat)) (a : String) (v : Nat)
    (k : String) :
    findEntry (jdDefine jd a v) k = if a = k then some v else findEntry jd k :=
  rfl

theorem findEntry_append (m1 m2 : List (String × Nat)) (k : String) :
    findEntry (m1 ++ m2) k =
      match findEntry m1 k with
      | some v => some v
      | none => findEntry m2 k := by
  induction m1 with
  | nil => simp [findEntry]
  | cons p rest ih =>
    obtain ⟨a, v⟩ := p
    by_cases ha : a = k <;> simp [findEntry, ha, ih]

theorem insertIfAbsent_isSome (m : List (String × Nat)) (a : String) (v : Nat)
    (k : String) :
    (findEntry (insertIfAbsent m a v) k).isSome = true ↔
      (findEntry m k).isSome = true ∨ k = a := by
  unfold insertIfAbsent
  cases hfind : findEntry m a with
  | some w =>
    constructor
    · exact fun h => Or.inl h
    · rintro (h | rfl)
      · exact h
      · rw [hfind]; rfl
  | none =>
    rw [findEntry_append]
    cases hk : findEntry m k with
    | some w => simp
    | none =>
      by_cases hak : a = k <;> simp [findEntry, hak, eq_comm]

theorem foldl_insert_isSome (l : List (String × Nat))
    (m : List (String × Nat)) (k : String) :
    (findEntry (l.foldl (fun m p => insertIfAbsent m p.1 p.2) m) k).isSome =
        true ↔
      (findEntry m k).isSome = true ∨ k ∈ l.map Prod.fst := by
  induction l generalizing m with
  | nil => simp
  | cons p rest ih =>
    obtain ⟨a, v⟩ := p
    simp only [List.foldl_cons, List.map_cons, List.mem_cons]
    rw [ih, insertIfAbsent_isSome]
    tauto

theorem foldl_jdDefine_findEntry (l : List (String × Nat))
    (jd : List (String × Nat)) (k : String) :
    findEntry (l.foldl (fun jd p => jdDefine jd p.1 p.2) jd) k =
      match lastBinding l k with
      | some w => some w
      | none => findEntry jd k := by
  induction l generalizing jd with
  | nil => simp [lastBinding]
  | cons p rest ih =>
    obtain ⟨a, v⟩ := p
    simp only [List.foldl_cons]
    rw [ih]
    cases hrest : lastBinding rest k with
    | some w => simp [lastBinding, hrest]
    | none =>
      by_cases hak : a = k <;>
        simp [lastBinding, hrest, jdDefine, findEntry, hak]

theorem toDigitsCore_fuel (f : Nat) : ∀ (g n : Nat) (ds : List Char),
    n < f → n < g →
    Nat.toDigitsCore 10 f n ds = Nat.toDigitsCore 10 g n ds := by
  induction f with
  | zero => intro g n ds hf; exact absurd hf (Nat.not_lt_zero n)
  | succ f ih =>
    intro g n ds hf hg
    cases g with
    | zero => exact absurd hg (Nat.not_lt_zero n)
    | succ g =>
      simp only [Nat.toDigitsCore]
      by_cases h10 : n / 10 = 0
      · simp [h10]
      · simp only [h10, if_false]
        have hlt : n / 10 < n := Nat.div_lt_self (Nat.pos_of_ne_zero (by
          intro h; subst h; simp at h10)) (by norm_num)
        exact ih g (n / 10) _ (by omega) (by omega)

theorem toDigitsCore_shift (f : Nat) : ∀ (n : Nat) (ds : List Char),
    Nat.toDigitsCore 10 f n ds = Nat.toDigitsCore 10 f n [] ++ ds := by
  induction f with
  | zero => intro n ds; simp [Nat.toDigitsCore]
  | succ f ih =>
    intro n ds
    simp only [Nat.toDigitsCore]
    by_cases h10 : n / 10 = 0
    · simp [h10]
    · simp only [h10, if_false]
      rw [ih (n / 10) (Nat.digitChar (n % 10) :: ds),
        ih (n / 10) [Nat.digitChar (n % 10)], List.append_assoc]
      rfl

theorem toDigits_lt10 (n : Nat) (h : n < 10) :
    Nat.toDigits 10 n = [Nat.digitChar n] := by
  simp only [Nat.toDigits, Nat.toDigitsCore]
  rw [Nat.div_eq_of_lt h, Nat.mod_eq_of_lt h]
  simp

theorem toDigits_ge10 (n : Nat) (h : 10 ≤ n) :
    Nat.toDigits 10 n =
      Nat.toDigits 10 (n / 10) ++ [Nat.digitChar (n % 10)] := by
  have hne : n / 10 ≠ 0 := by
    intro h0
    have := Nat.div_eq_of_lt (show n < 10 by omega)
    omega
  simp only [Nat.toDigits, Nat.toDigitsCore]
  have hne2 : ¬ n / 10 = 0 := hne
  simp only [hne2, if_false]
  rw [toDigitsCore_shift]
  congr 1
  exact toDigitsCore_fuel n (n / 10 + 1) (n / 10) []
    (Nat.lt_of_lt_of_le (Nat.div_lt_self (by omega) (by norm_num))
      (le_refl n))
    (Nat.lt_succ_self _)

theorem digitChar_inj_lt10 (a b : Nat) (ha : a < 10) (hb : b < 10)
    (h : Nat.digitChar a = Nat.digitChar b) : a = b := by
  interval_cases a <;> interval_cases b <;>
    first
      | rfl
      | (exfalso; revert h; decide)

theorem toDigits_ne_nil (n : Nat) : Nat.toDigits 10 n ≠ [] := by
  by_cases h : n < 10
  · rw [toDigits_lt10 n h]; simp
  · rw [toDigits_ge10 n (by omega)]; simp

theorem toDigits_inj (n : Nat) :
    ∀ m, Nat.toDigits 10 n = Nat.toDigits 10 m → n = m := by
  induction n using Nat.strong_induction_on with
  | _ n ih =>
    intro m h
    by_cases hn : n < 10 <;> by_cases hm : m < 10
    · rw [toDigits_lt10 n hn, toDigits_lt10 m hm] at h
      exact digitChar_inj_lt10 n m hn hm (List.cons.injEq _ _ _ _ ▸ h |>.1)
    · rw [toDigits_lt10 n hn, toDigits_ge10 m (by omega)] at h
      have hlen := congrArg List.length h
      have hpos : 0 < (Nat.toDigits 10 (m / 10)).length :=
        List.length_pos.mpr (toDigits_ne_nil _)
      simp only [List.length_cons, List.length_append,
        List.length_nil] at hlen
      omega
    · rw [toDigits_ge10 n (by omega), toDigits_lt10 m hm] at h
      have hlen := congrArg List.length h
      have hpos : 0 < (Nat.toDigits 10 (n / 10)).length :=
        List.length_pos.mpr (toDigits_ne_nil _)
      simp only [List.length_cons, List.length_append,
        List.length_nil] at hlen
      omega
    · rw [toDigits_ge10 n (by omega), toDigits_ge10 m (by omega)] at h
      have hsplit := List.append_inj' h (by simp)
      have hdiv : n / 10 = m / 10 :=
        ih (n / 10) (Nat.div_lt_self (by omega) (by norm_num)) (m / 10)
          hsplit.1
      have hmod : n % 10 = m % 10 := by
        have h2 := hsplit.2
        simp only [List.cons.injEq, and_true] at h2
        exact digitChar_inj_lt10 _ _ (Nat.mod_lt _ (by norm_num))
          (Nat.mod_lt _ (by norm_num)) h2
      omega

theorem natRepr_inj (n m : Nat) (h : Nat.repr n = Nat.repr m) : n = m := by
  apply toDigits_inj
  have h2 := congrArg String.data h
  simpa [Nat.repr, List.asString] using h2

theorem string_append_cancel_left (a x y : String) (h : a ++ x = a ++ y) :
    x = y := by
  apply String.ext
  have h2 := congrArg String.data h
  simp only [String.data_append] at h2
  exact List.append_cancel_left h2

theorem expectedName_inj (b : String) (p q : Nat)
    (h : expectedName b p = expectedName b q) : p = q := by
  unfold expectedName at h
  by_cases hp : p = 0 <;> by_cases hq : q = 0
  · omega
  · rw [if_pos hp, if_neg hq] at h
    have hd := congrArg String.data h
    simp only [String.data_append] at hd
    have hlen := congrArg List.length hd
    simp only [List.length_append, List.length_singleton] at hlen
    omega
  · rw [if_neg hp, if_pos hq] at h
    have hd := congrArg String.data h
    simp only [String.data_append] at hd
    have hlen := congrArg List.length hd
    simp only [List.length_append, List.length_singleton] at hlen
    omega
  · rw [if_neg hp, if_neg hq] at h
    exact natRepr_inj p q (string_append_cancel_left (b ++ "_") _ _ h)

theorem countOcc_take_lt (l : List String) :
    ∀ (i j : Nat), i < j → i < l.length →
      countOcc (l.getD i "") (l.take i) <
        countOcc (l.getD i "") (l.take j) := by
  induction l with
  | nil => intro i j hij hi; exact absurd hi (Nat.not_lt_zero i)
  | cons x rest ih =>
    intro i j hij hi
    cases i with
    | zero =>
      cases j with
      | zero => exact absurd hij (lt_irrefl 0)
      | succ j =>
        simp [countOcc, List.take_succ_cons]
    | succ n =>
      cases j with
      | zero => exact absurd hij (by omega)
      | succ j =>
        have hn : n < rest.length := Nat.lt_of_succ_lt_succ hi
        have := ih n j (by omega) hn
        simp only [List.getD_cons_succ, List.take_succ_cons, countOcc]
        omega

theorem runNames_getD_inv (l : List String) :
    ∀ (m : NameMap) (c : String → Nat),
      (∀ b, m b = if c b = 0 then none else some (c b - 1)) →
      ∀ (i : Nat), i < l.length →
        (runNames m l).getD i "" =
          expectedName (l.getD i "")
            (c (l.getD i "") + countOcc (l.getD i "") (l.take i)) := by
  induction l with
  | nil => intro m c hm i hi; exact absurd hi (Nat.not_lt_zero i)
  | cons b0 rest ih =>
    intro m c hm i hi
    cases i with
    | zero =>
      have hout : (runNames m (b0 :: rest)).getD 0 "" =
          (getUniqueFunctionName m b0).1 := rfl
      rw [hout]
      unfold getUniqueFunctionName
      rw [hm b0]
      by_cases h0 : c b0 = 0
      · simp [h0, expectedName, countOcc]
      · simp only [if_neg h0, List.getD_cons_zero, List.take_zero, countOcc,
          Nat.add_zero, expectedName]
        have harg : c b0 - 1 + 1 = c b0 := by omega
        rw [harg]
    | succ n =>
      have hn : n < rest.length := Nat.lt_of_succ_lt_succ hi
      have hm2 : ∀ b, (getUniqueFunctionName m b0).2 b =
          if (if b = b0 then c b0 + 1 else c b) = 0 then none
          else some ((if b = b0 then c b0 + 1 else c b) - 1) := by
        intro b
        unfold getUniqueFunctionName
        rw [hm b0]
        by_cases hb : b = b0
        · subst hb
          by_cases h0 : c b = 0 <;>
            simp [h0, setName] <;> omega
        · by_cases h0 : c b0 = 0 <;>
            simp [h0, setName, hb, hm b]
      have hstep := ih (getUniqueFunctionName m b0).2
        (fun b => if b = b0 then c b0 + 1 else c b) hm2 n hn
      simp only [runNames, List.getD_cons_succ, List.take_succ_cons,
        countOcc]
      rw [hstep]
      congr 1
      have key : ∀ (b : String) (p : Nat),
          (if b = b0 then c b0 + 1 else c b) + p =
            c b + ((if b0 = b then 1 else 0) + p) := by
        intro b p
        by_cases hb : b = b0
        · subst hb
          simp only [eq_self_iff_true, if_true]
          omega
        · have hb2 : ¬ (b0 = b) := fun h => hb h.symm
          simp only [if_neg hb, if_neg hb2]
          omega
      exact key _ _

theorem nameAt_eq (l : List String) (i : Nat) (hi : i < l.length) :
    nameAt l i =
      expectedName (l.getD i "") (countOcc (l.getD i "") (l.take i)) := by
  have h := runNames_getD_inv l emptyNames (fun _ => 0)
    (fun b => rfl) i hi
  simpa [nameAt] using h

theorem nameAt_ne_of_lt (l : List String) (i j : Nat) (hij : i < j)
    (hj : j < l.length) (hbase : l.getD i "" = l.getD j "") :
    nameAt l i ≠ nameAt l j := by
  have hi : i < l.length := lt_trans hij hj
  rw [nameAt_eq l i hi, nameAt_eq l j hj, ← hbase]
  intro heq
  have h2 := expectedName_inj _ _ _ heq
  have h3 := countOcc_take_lt l i j hij hi
  omega

/-- C3: for every descriptor the cache key is exactly
`"triple:" ++ triple-or-empty ++ "cpu:" ++ cpu-or-empty ++ "attrs:" ++
attrs-or-empty`, and consequently a descriptor with an absent field and the
same descriptor with that field set to the empty string produce identical
cache keys. -/
theorem cacheKey_exact_encoding_and_absent_empty_collision :
    (∀ t c a : Option String,
        getCacheKey t c a =
          "triple:" ++ t.getD "" ++ "cpu:" ++ c.getD "" ++ "attrs:" ++
            a.getD "") ∧
    (∀ c a : Option String, getCacheKey none c a = getCacheKey (some "") c a) ∧
    (∀ t a : Option String, getCacheKey t none a = getCacheKey t (some "") a) ∧
    (∀ t c : Option String, getCacheKey t c none = getCacheKey t c (some "")) := by
  refine ⟨fun t c a => ?_, fun c a => rfl, fun t a => ?_, fun t c => ?_⟩
  · cases t <;> cases c <;> cases a <;> (apply String.ext; simp [getCacheKey])
  · cases t <;> rfl
  · cases t <;> cases c <;> rfl

/-- C5: for every supported scalar kind, storing a representable value into a
`CallArg` cell (over arbitrary uninitialized high bytes) and reading it back
through the accessor of the same kind returns the value unchanged. -/
theorem callArg_roundtrip (k : ScalarKind) (junk : Nat) (v : Int)
    (hv : inRange k v) :
    readCallArgScalar k (mkCallArgScalar k junk v) = v := by
  cases k <;>
    (simp only [readCallArgScalar, mkCallArgScalar, bitPattern, byteWidth,
       isSignedInt, inRange] at hv ⊢) <;>
    norm_num at hv ⊢ <;> omega

/-- Witness for C5 at a concrete input: the 64-bit signed minimum
`-2 ^ 63` round-trips through a Long cell whose high part held junk. -/
theorem callArg_roundtrip_witness :
    inRange ScalarKind.long (-(2 ^ 63)) ∧
      readCallArgScalar ScalarKind.long
          (mkCallArgScalar ScalarKind.long 7 (-(2 ^ 63))) =
        -(2 ^ 63) :=
  ⟨by simp only [inRange]; norm_num,
    callArg_roundtrip ScalarKind.long 7 (-(2 ^ 63))
      (by simp only [inRange]; norm_num)⟩

/-- C2 counterexample: with the triple supplied and cpu and attrs absent, the
builder leaves the CPU unset (empty) and the feature list empty instead of
resolving them to the host CPU name and the host-detected features, refuting
the claim that the host defaults apply regardless of which other fields are
present. -/
theorem target_resolution_triple_present_no_host_defaults :
    (makeTargetMachineBuilder host0 (some "aarch64-none-elf") none none).cpu ≠
        host0.hostCPU ∧
      (makeTargetMachineBuilder host0 (some "aarch64-none-elf") none
            none).features ≠
        getHostSubtargetFeatures host0 := by
  decide

/-- C2 amended: the triple always resolves to the supplied triple or, when
absent, the host triple.  When the triple is absent, an absent cpu resolves
to the host CPU name and absent attrs resolve to the host-detected features.
When the triple is present, an absent cpu is left unset (empty string) and
absent attrs leave the feature list empty.  A supplied cpu is always used,
and supplied attrs are always parsed into the feature list. -/
theorem target_resolution_amended (h : HostInfo)
    (triple cpu attrs : Option String) :
    (makeTargetMachineBuilder h triple cpu attrs).targetTriple =
        triple.getD h.hostTriple ∧
      (makeTargetMachineBuilder h triple cpu attrs).cpu =
        (match triple with
          | none => cpu.getD h.hostCPU
          | some _ => cpu.getD "") ∧
      (makeTargetMachineBuilder h triple cpu attrs).features =
        (match triple, attrs with
          | _, some a => splitFeatures a
          | none, none => getHostSubtargetFeatures h
          | some _, none => []) := by
  cases triple <;> cases cpu <;> cases attrs <;>
    simp [makeTargetMachineBuilder, makeJTMBFromHost, makeJTMBFromTriple,
      mkJTMB, Option.getD]

/-- C1 counterexample: the descriptors `{triple: none, cpu: none, attrs: none}`
and `{triple: some "", cpu: none, attrs: none}` differ in the triple field,
yet two `get` calls with them return the same engine instance (both keys are
`"triple:cpu:attrs:"`), refuting the claim that descriptors differing in any
field return different instances. -/
theorem jit_cache_distinct_descriptors_same_engine :
    (⟨none, none, none⟩ : TargetDesc) ≠ ⟨some "", none, none⟩ ∧
      engineAt [⟨none, none, none⟩, ⟨some "", none, none⟩] 0 =
        engineAt [⟨none, none, none⟩, ⟨some "", none, none⟩] 1 := by
  decide

/-- C1 amended: in any sequence of `get` calls on the JIT instance cache, two
calls return the same engine instance exactly when their descriptors have
equal cache keys.  In particular field-identical descriptors always share one
engine, and descriptors with different cache keys get different engines, but
descriptors that differ only in a field being absent versus empty collide on
the key and also share one engine. -/
theorem jit_cache_same_engine_iff_equal_key (ds : List TargetDesc) (i j : Nat)
    (hi : i < ds.length) (hj : j < ds.length) :
    engineAt ds i = engineAt ds j ↔
      descKey (ds.getD i default) = descKey (ds.getD j default) := by
  have h1 := runGets_getD_eq_findEntry ds initCache i hi
  have h2 := runGets_getD_eq_findEntry ds initCache j hj
  constructor
  · intro h
    have hg := goodCache_run initCache ds goodCache_init
    have m1 := findEntry_mem h1
    have m2 := findEntry_mem h2
    rw [engineAt, engineAt] at h
    rw [h] at m1
    exact hg.2 _ m1 _ m2 rfl
  · intro h
    rw [h] at h1
    rw [h2] at h1
    exact (Option.some.injEq _ _ ▸ h1).symm

/-- Witness for the amended C1 theorem at a concrete input: two `get` calls
with the field-identical descriptor `{none, none, none}` return the same
engine. -/
theorem jit_cache_same_engine_iff_equal_key_witness :
    engineAt [(⟨none, none, none⟩ : TargetDesc), ⟨none, none, none⟩] 0 =
        engineAt [(⟨none, none, none⟩ : TargetDesc), ⟨none, none, none⟩] 1 ↔
      descKey
          (List.getD [(⟨none, none, none⟩ : TargetDesc), ⟨none, none, none⟩]
            0 default) =
        descKey
          (List.getD [(⟨none, none, none⟩ : TargetDesc), ⟨none, none, none⟩]
            1 default) :=
  jit_cache_same_engine_iff_equal_key _ 0 1 (by decide) (by decide)

/-- C6: after engine construction, `hasSymbol` returns true exactly for the
names of the static intrinsic list — for those names `findSymbol` also
succeeds — and returns false for every other name, including names only
present in the backend external-function registry. -/
theorem hasSymbol_intrinsics_findSymbol_resolves
    (staticList registry : List (String × Nat)) (dp : Nat) (name : String) :
    (name ∈ staticList.map Prod.fst →
        hasSymbol (registerIntrinsics staticList registry dp).2 name = true ∧
          (findSymbol (registerIntrinsics staticList registry dp).1
              name).isSome = true) ∧
      (name ∉ staticList.map Prod.fst →
        hasSymbol (registerIntrinsics staticList registry dp).2 name =
          false) := by
  constructor
  · intro hmem
    refine ⟨by simp [registerIntrinsics, hasSymbol, hmem], ?_⟩
    simp only [registerIntrinsics, findSymbol]
    rw [findEntry_jdDefine]
    by_cases hdp : "DispatchParallel" = name
    · rw [if_pos hdp]; rfl
    · rw [if_neg hdp, foldl_jdDefine_findEntry]
      cases hlast : lastBinding registry name with
      | some w => simp
      | none =>
        exact (foldl_insert_isSome staticList [] name).mpr (Or.inr hmem)
  · intro hmem
    simp [registerIntrinsics, hasSymbol, hmem]

/-- Witness for C6 at concrete inputs: with static intrinsics `sin`, `log`
and registry entry `custom`, the name `sin` is reported and resolvable while
`custom` is not reported by `hasSymbol`. -/
theorem hasSymbol_intrinsics_findSymbol_resolves_witness :
    (hasSymbol
          (registerIntrinsics [("sin", 10), ("log", 11)] [("custom", 20)]
              99).2 "sin" = true ∧
        (findSymbol
            (registerIntrinsics [("sin", 10), ("log", 11)] [("custom", 20)]
                99).1 "sin").isSome = true) ∧
      hasSymbol
          (registerIntrinsics [("sin", 10), ("log", 11)] [("custom", 20)]
              99).2 "custom" = false :=
  ⟨(hasSymbol_intrinsics_findSymbol_resolves [("sin", 10), ("log", 11)]
        [("custom", 20)] 99 "sin").1 (by decide),
    (hasSymbol_intrinsics_findSymbol_resolves [("sin", 10), ("log", 11)]
        [("custom", 20)] 99 "custom").2 (by decide)⟩

/-- C7: when a name occurs both in the static intrinsic list and in the
backend external-function registry, registration succeeds and the engine's
namespace resolves the name to the address of the last registration — the
registry entry, which is defined after the static batch (assuming the name is
not `DispatchParallel`, whose registration comes later still). -/
theorem duplicate_registration_last_wins
    (staticList registry : List (String × Nat)) (dp : Nat) (name : String)
    (a : Nat) (_hstatic : name ∈ staticList.map Prod.fst)
    (hlast : lastBinding registry name = some a)
    (hdp : name ≠ "DispatchParallel") :
    findSymbol (registerIntrinsics staticList registry dp).1 name = some a := by
  simp only [registerIntrinsics, findSymbol]
  rw [findEntry_jdDefine, if_neg (Ne.symm hdp), foldl_jdDefine_findEntry,
    hlast]

/-- Witness for C7 at concrete inputs: `log` is a static intrinsic and is
registered twice more through the registry; the final namespace resolves it
to the address of the last registration. -/
theorem duplicate_registration_last_wins_witness :
    findSymbol
        (registerIntrinsics [("log", 11)] [("log", 20), ("log", 21)] 99).1
        "log" = some 21 :=
  duplicate_registration_last_wins [("log", 11)] [("log", 20), ("log", 21)]
    99 "log" 21 (by decide) (by decide) (by decide)

/-- C4: for every sequence of allocator calls on a fresh engine, the `i`-th
call with base `b` returns `b` unchanged when it is the first call with that
base and `b_n` (decimal suffix) when `n` calls with the same base came
before, independently of calls with other bases.  In particular three calls
with base `"kernel"` yield `"kernel"`, `"kernel_1"`, `"kernel_2"` and a
later call with base `"other"` starts again at `"other"`. -/
theorem uniqueFunctionName_per_base_sequence (l : List String) (i : Nat)
    (hi : i < l.length) :
    nameAt l i =
      expectedName (l.getD i "") (countOcc (l.getD i "") (l.take i)) :=
  nameAt_eq l i hi

/-- Witness for C4 at a concrete input: in the call sequence `kernel`,
`kernel`, `kernel`, `other` the third call returns `"kernel_2"` and the
fourth returns `"other"`. -/
theorem uniqueFunctionName_per_base_sequence_witness :
    nameAt ["kernel", "kernel", "kernel", "other"] 2 = "kernel_2" ∧
      nameAt ["kernel", "kernel", "kernel", "other"] 3 = "other" := by
  constructor
  · have h := uniqueFunctionName_per_base_sequence
      ["kernel", "kernel", "kernel", "other"] 2 (by decide)
    rw [h]; decide
  · have h := uniqueFunctionName_per_base_sequence
      ["kernel", "kernel", "kernel", "other"] 3 (by decide)
    rw [h]; decide

/-- C8: within one engine lifetime, no two allocator calls with the same
base return equal name strings, whatever the interleaved call sequence. -/
theorem uniqueFunctionName_no_duplicates_per_base (l : List String)
    (i j : Nat) (hi : i < l.length) (hj : j < l.length) (hne : i ≠ j)
    (hbase : l.getD i "" = l.getD j "") :
    nameAt l i ≠ nameAt l j := by
  rcases Nat.lt_or_ge i j with h | h
  · exact nameAt_ne_of_lt l i j h hj hbase
  · have hlt : j < i := by omega
    exact (nameAt_ne_of_lt l j i hlt hi hbase.symm).symm

/-- Witness for C8 at a concrete input: two consecutive calls with base
`"kernel"` return different names. -/
theorem uniqueFunctionName_no_duplicates_per_base_witness :
    nameAt ["kernel", "kernel"] 0 ≠ nameAt ["kernel", "kernel"] 1 :=
  uniqueFunctionName_no_duplicates_per_base ["kernel", "kernel"] 0 1
    (by decide) (by decide) (by decide) (by decide)

/-- C10: the allocator does not guarantee distinctness across different base
names: after two calls with base `"kernel"` (returning `"kernel"` and
`"kernel_1"`), a first call with base `"kernel_1"` returns `"kernel_1"`
again — a duplicate across bases. -/
theorem uniqueName_cross_base_duplicate :
    runNames emptyNames ["kernel", "kernel", "kernel_1"] =
      ["kernel", "kernel_1", "kernel_1"] := by
  decide

end PytorchJit
